import Mathlib

/-!
Verification development for the semantic-note-linking engine
(`zettel-link/scripts/embed.py`, `link.py`, `search.py`).

Modelling conventions:
* Python floats (modification times, embedding components, thresholds) are
  modelled as exact rationals `ℚ`; the similarity value, which goes through
  `math.sqrt`, lives in `ℝ` (`Real.sqrt` of the rational sums).
* Python dicts (the embedding cache, keyed by relative path) are modelled as
  association lists in insertion order, with dict assignment replacing the
  first matching key in place or appending at the end.
* `sys.exit(n)` is modelled by `Except.error n`; a run that finishes
  normally returns `Except.ok` with its final state.
* Regex substitutions of `clean_text` are implemented as direct fuelled
  scanners over `List Char`, each one mirroring the behaviour of the single
  concrete pattern it stands for (leftmost match, one-character advance on a
  failed match attempt, greedy or lazy quantifiers as in the pattern).
-/

namespace ZettelLink

/-! ## Text normalizer (`embed.py`: `clean_text` and its regexes) -/

/-- ASCII model of Python's `str.strip()` / `\s` whitespace class. -/
def isPySpace (c : Char) : Bool :=
  c = ' ' || c = '\t' || c = '\n' || c = '\r' || c = '\x0b' || c = '\x0c'

/-- Remove trailing characters satisfying `isPySpace` (second half of
`str.strip()`). -/
def dropTrailingWs : List Char → List Char
  | [] => []
  | c :: rest =>
    let r := dropTrailingWs rest
    if r.isEmpty then (if isPySpace c then [] else [c]) else c :: r

/-- Python `str.strip()`. -/
def pyStrip (s : List Char) : List Char :=
  dropTrailingWs (s.dropWhile isPySpace)

/-- Drop everything up to and including the first occurrence of `pat`;
`none` when `pat` does not occur.  Fuel-driven scan. -/
def afterSub (pat : List Char) : Nat → List Char → Option (List Char)
  | 0, s => if pat.isPrefixOf s then some (s.drop pat.length) else none
  | fuel + 1, s =>
    if pat.isPrefixOf s then some (s.drop pat.length)
    else
      match s with
      | [] => none
      | _ :: rest => afterSub pat fuel rest

/-- Pattern `FM_PATTERN = re.compile(r'^---\n.*?\n---\n?', re.DOTALL)`, applied with
`count=1`: strips one leading front-matter block (lazy body, optional final
newline). -/
def fmSub (s : List Char) : List Char :=
  if ("---\n".data).isPrefixOf s then
    let rest := s.drop 4
    match afterSub "\n---".data rest.length rest with
    | some r =>
      match r with
      | '\n' :: r' => r'
      | _ => r
    | none => s
  else s

/-- Pattern `CODE_BLOCK_RE = re.compile(r'```.*?```', re.DOTALL)`, global
substitution by the empty string. -/
def codeSub : Nat → List Char → List Char
  | 0, s => s
  | fuel + 1, s =>
    match s with
    | [] => []
    | c :: rest =>
      if ("```".data).isPrefixOf s then
        match afterSub "```".data (s.drop 3).length (s.drop 3) with
        | some r => codeSub fuel r
        | none => c :: codeSub fuel rest
      else c :: codeSub fuel rest

/-- Pattern `WIKILINK_RE = re.compile(r'\[\[([^\]|]+)(?:\|[^\]]*)?]]')`, global
substitution by the first capture group (the link target). -/
def wikiSub : Nat → List Char → List Char
  | 0, s => s
  | _ + 1, [] => []
  | fuel + 1, '[' :: '[' :: rest =>
    let g1 := rest.takeWhile (fun c => !(c = ']' || c = '|'))
    let r1 := rest.drop g1.length
    if g1.isEmpty then '[' :: wikiSub fuel ('[' :: rest)
    else
      match r1 with
      | '|' :: r2 =>
        let r3 := r2.dropWhile (fun c => !(c = ']'))
        if ("]]".data).isPrefixOf r3 then g1 ++ wikiSub fuel (r3.drop 2)
        else '[' :: wikiSub fuel ('[' :: rest)
      | ']' :: ']' :: r2 => g1 ++ wikiSub fuel r2
      | _ => '[' :: wikiSub fuel ('[' :: rest)
  | fuel + 1, c :: rest => c :: wikiSub fuel rest

/-- Pattern `MD_LINK_RE = re.compile(r'\[([^\]]+)\]\([^)]+\)')`, global substitution
by the label. -/
def mdSub : Nat → List Char → List Char
  | 0, s => s
  | _ + 1, [] => []
  | fuel + 1, '[' :: rest =>
    let g1 := rest.takeWhile (fun c => !(c = ']'))
    if g1.isEmpty then '[' :: mdSub fuel rest
    else
      match rest.drop g1.length with
      | ']' :: '(' :: r2 =>
        let g2 := r2.takeWhile (fun c => !(c = ')'))
        if g2.isEmpty then '[' :: mdSub fuel rest
        else
          match r2.drop g2.length with
          | ')' :: r3 => g1 ++ mdSub fuel r3
          | _ => '[' :: mdSub fuel rest
      | _ => '[' :: mdSub fuel rest
  | fuel + 1, c :: rest => c :: mdSub fuel rest

/-- Pattern `HTML_RE = re.compile(r'<[^>]+>')`, global substitution by the empty
string. -/
def htmlSub : Nat → List Char → List Char
  | 0, s => s
  | _ + 1, [] => []
  | fuel + 1, '<' :: rest =>
    let g := rest.takeWhile (fun c => !(c = '>'))
    if g.isEmpty then '<' :: htmlSub fuel rest
    else
      match rest.drop g.length with
      | '>' :: r2 => htmlSub fuel r2
      | _ => '<' :: htmlSub fuel rest
  | fuel + 1, c :: rest => c :: htmlSub fuel rest

/-- Pattern `URL_RE = re.compile(r'https?://\S+')`, global substitution by the empty
string. -/
def urlSub : Nat → List Char → List Char
  | 0, s => s
  | _ + 1, [] => []
  | fuel + 1, c :: rest =>
    let schemeLen : Option Nat :=
      if ("https://".data).isPrefixOf (c :: rest) then some 8
      else if ("http://".data).isPrefixOf (c :: rest) then some 7
      else none
    match schemeLen with
    | some k =>
      let r := (c :: rest).drop k
      let run := r.takeWhile (fun ch => !isPySpace ch)
      if run.isEmpty then c :: urlSub fuel rest
      else urlSub fuel (r.drop run.length)
    | none => c :: urlSub fuel rest

/-- Step `re.sub(r'\n{3,}', '\n\n', text)`: the counter tracks how many
consecutive newlines were just emitted; a third one in a row is dropped. -/
def collapseAux : Nat → List Char → List Char
  | _, [] => []
  | k, c :: rest =>
    if c = '\n' then
      if 2 ≤ k then collapseAux k rest else c :: collapseAux (k + 1) rest
    else c :: collapseAux 0 rest

/-- Collapse runs of three or more newlines to exactly two. -/
def collapseNewlines (s : List Char) : List Char := collapseAux 0 s

/-- The final whitespace-normalization stage of `clean_text`: collapse long
newline runs, then `strip()`. -/
def normalizeWhitespace (s : List Char) : List Char :=
  pyStrip (collapseNewlines s)

/-- Function `clean_text` of `embed.py`: strip front matter, code blocks, wikilinks,
markdown links, HTML tags and URLs, collapse newline runs, trim. -/
def clean_text (content : String) : String :=
  let t0 := fmSub content.data
  let t1 := codeSub t0.length t0
  let t2 := wikiSub t1.length t1
  let t3 := mdSub t2.length t2
  let t4 := htmlSub t3.length t3
  let t5 := urlSub t4.length t4
  String.mk (normalizeWhitespace t5)

/-! ## Data model (`embed.py`: notes, cache records, run state) -/

/-- A scanned note file.  `content?` is the result of
`path.read_text(...)`: `none` models an unreadable file. -/
structure Note where
  path : String
  stem : String
  rel : String
  mtime : ℚ
  content? : Option String
deriving DecidableEq

/-- One cache record (`embed.py` `main`, the value stored at `cache[rel]`). -/
structure Entry where
  path : String
  stem : String
  rel : String
  mtime : ℚ
  embedding : List ℚ
  text_preview : String
deriving DecidableEq

/-- Python dict lookup `cache.get(rel)` on the insertion-ordered model. -/
def dictGet : List (String × Entry) → String → Option Entry
  | [], _ => none
  | (k', v) :: rest, k => if k' = k then some v else dictGet rest k

/-- Python dict assignment `cache[rel] = entry`: replace in place if the key
exists, else append. -/
def dictInsert : List (String × Entry) → String → Entry → List (String × Entry)
  | [], k, v => [(k, v)]
  | (k', v') :: rest, k, v =>
    if k' = k then (k, v) :: rest else (k', v') :: dictInsert rest k v

/-- Mutable state of the `embed.py` `main` loop. -/
structure RunState where
  cache : List (String × Entry)
  new_count : ℕ
  skip_count : ℕ
  error_count : ℕ
  removed_count : ℕ
  active_keys : List String
deriving DecidableEq

/-! ## Embedding provider gateway (`embed.py`: `embed_text`) -/

/-- Outcome of one outbound embedding call, as seen from `embed_text`'s
`try` block: a vector on success, or one of the failure modes its `except`
branches (and the `sys.exit(1)` for a missing API key inside
`embed_openai`/`embed_gemini`) handle. -/
inductive ProviderOutcome where
  | ok (v : List ℚ)
  | networkError
  | httpError
  | missingApiKey
  | malformedResponse
deriving DecidableEq

/-- Function `embed_text` of `embed.py`: on any provider failure it prints a diagnostic
and calls `sys.exit(1)`; only a successful call returns a vector.  The
provider environment (dispatch by name plus the HTTP exchange) is abstracted
as a function from the input text to a `ProviderOutcome`. -/
def embed_text (provider : String → ProviderOutcome) (text : String) :
    Except ℕ (List ℚ) :=
  match provider text with
  | .ok v => .ok v
  | _ => .error 1

/-! ## The incremental embed run (`embed.py`: `main`) -/

/-- The freshness test of `embed.py` `main`:
`cached = cache.get(rel); if cached and not force: if cached["mtime"] >= mtime: skip`. -/
def freshSkip (force : Bool) (cache : List (String × Entry)) (rel : String)
    (mtime : ℚ) : Bool :=
  match dictGet cache rel with
  | some cached => !force && decide (mtime ≤ cached.mtime)
  | none => false

/-- One iteration of the `for i, path in enumerate(notes)` loop. -/
def stepNote (force : Bool) (maxLen : ℕ) (provider : String → ProviderOutcome)
    (st : RunState) (n : Note) : Except ℕ RunState :=
  let active := n.rel :: st.active_keys
  match n.content? with
  | none => .ok { st with error_count := st.error_count + 1, active_keys := active }
  | some content =>
    let text := clean_text content
    if (pyStrip text.data).isEmpty then
      .ok { st with skip_count := st.skip_count + 1, active_keys := active }
    else if freshSkip force st.cache n.rel n.mtime then
      .ok { st with skip_count := st.skip_count + 1, active_keys := active }
    else
      match embed_text provider (text.take maxLen) with
      | .error e => .error e
      | .ok emb =>
        .ok { st with
              cache := dictInsert st.cache n.rel
                { path := n.path, stem := n.stem, rel := n.rel, mtime := n.mtime,
                  embedding := emb, text_preview := text.take 200 },
              new_count := st.new_count + 1,
              active_keys := active }

/-- The note loop; an `Except.error` models the `sys.exit(1)` raised from
`embed_text` propagating out of `main` (`except SystemExit: raise`). -/
def runNotes (force : Bool) (maxLen : ℕ) (provider : String → ProviderOutcome) :
    List Note → RunState → Except ℕ RunState
  | [], st => .ok st
  | n :: rest, st =>
    match stepNote force maxLen provider st n with
    | .error e => .error e
    | .ok st' => runNotes force maxLen provider rest st'

/-- The pruning pass after the loop: delete every cache key that is not in
`active_keys`, counting the removals. -/
def pruneState (st : RunState) : RunState :=
  let kept := st.cache.filter fun p => decide (p.1 ∈ st.active_keys)
  { st with
    cache := kept
    removed_count := st.removed_count + (st.cache.length - kept.length) }

/-- Initial loop state (counters zero, no active keys). -/
def initState (cache0 : List (String × Entry)) : RunState :=
  { cache := cache0, new_count := 0, skip_count := 0, error_count := 0,
    removed_count := 0, active_keys := [] }

/-- One full `embed.py` run over an already-scanned corpus:
`cache = {} if args.force else load_cache(...)`, the note loop, then
pruning.  (The periodic and final `save_cache` calls persist `st.cache`
verbatim and are I/O.) -/
def runEmbed (force : Bool) (maxLen : ℕ) (provider : String → ProviderOutcome)
    (notes : List Note) (loaded : List (String × Entry)) : Except ℕ RunState :=
  let cache0 := if force then [] else loaded
  (runNotes force maxLen provider notes (initState cache0)).map pruneState

/-- Metadata of `save_cache`: `total_notes` is the record count of the mapping
being persisted. -/
def cacheTotalNotes (data : List (String × Entry)) : ℕ := data.length

/-- Metadata of `save_cache`: embedding size detected from the first record
with a non-empty vector. -/
def cacheEmbeddingSize : List (String × Entry) → ℕ
  | [] => 0
  | (_, e) :: rest =>
    if e.embedding.isEmpty then cacheEmbeddingSize rest else e.embedding.length

/-! ## Similarity engine (`link.py`, `search.py`: `cosine_similarity`) -/

/-- Expression `sum(x * y for x, y in zip(a, b))`: the dot product over the common
prefix (Python `zip` truncates to the shorter list). -/
def dotQ (a b : List ℚ) : ℚ := ((a.zip b).map fun p => p.1 * p.2).sum

/-- Expression `sum(x * x for x in a)`: the squared Euclidean norm. -/
def sumSq (a : List ℚ) : ℚ := (a.map fun x => x * x).sum

/-- Function `cosine_similarity` (identical in `link.py` and `search.py`): dot product
over `zip a b` divided by the product of the full norms, `0.0` when either
norm is zero. -/
noncomputable def cosine_similarity (a b : List ℚ) : ℝ :=
  let dot : ℚ := dotQ a b
  let norm_a : ℝ := Real.sqrt ((sumSq a : ℚ) : ℝ)
  let norm_b : ℝ := Real.sqrt ((sumSq b : ℚ) : ℝ)
  if norm_a = 0 ∨ norm_b = 0 then 0 else (dot : ℝ) / (norm_a * norm_b)

/-! ## Link discovery (`link.py`: `find_links`) -/

/-- The `note_a` / `note_b` blocks of a link record. -/
structure LinkNote where
  stem : String
  rel : String
  path : String

/-- One element of the `links` list produced by `find_links`. -/
structure Link where
  score : ℝ
  note_a : LinkNote
  note_b : LinkNote

/-- Python `round(sim, 4)` modelled as rounding to the nearest multiple of
`1/10000` over `ℝ` (Python rounds half to even on floats; the two agree
except at exact midpoints of the fourth decimal, which no claim touches). -/
noncomputable def round4 (x : ℝ) : ℝ := ((round (x * 10000) : ℤ) : ℝ) / 10000

/-- The link record built for the pair of cache items `a` (at the smaller
index) and `b`, with raw similarity `s`: `rel` comes from the dict key,
`stem` and `path` from the stored record. -/
noncomputable def mkLink (a b : String × Entry) (s : ℝ) : Link :=
  { score := round4 s
    note_a := { stem := a.2.stem, rel := a.1, path := a.2.path }
    note_b := { stem := b.2.stem, rel := b.1, path := b.2.path } }

/-- All index pairs `i < j` of a list, in the iteration order of the nested
`for i ... for j in range(i+1, n)` loops. -/
def allPairs {α : Type} : List α → List (α × α)
  | [] => []
  | x :: rest => (rest.map fun y => (x, y)) ++ allPairs rest

/-- Descending order on link scores, used by
`links.sort(key=lambda x: x["score"], reverse=True)`. -/
def linkGE (l1 l2 : Link) : Prop := l2.score ≤ l1.score

noncomputable instance : DecidableRel linkGE :=
  fun l1 l2 => Real.decidableLE l2.score l1.score

/-- Function `find_links` of `link.py`: keep every `i < j` pair whose similarity `sim`
satisfies `threshold <= sim < max_threshold` (default `0.98`), then sort by
score descending. -/
noncomputable def find_links (cache : List (String × Entry)) (threshold : ℚ)
    (max_threshold : ℚ := 98 / 100) : List Link :=
  let candidates := (allPairs cache).filterMap fun p =>
    let s := cosine_similarity p.1.2.embedding p.2.2.embedding
    if (threshold : ℝ) ≤ s ∧ s < (max_threshold : ℝ) then some (mkLink p.1 p.2 s)
    else none
  List.insertionSort linkGE candidates

/-! ## Query engine (`search.py`: `main`, after the cache is loaded) -/

/-- Descending order on scored search rows. -/
def rowGE (x y : ℝ × String × Entry) : Prop := y.1 ≤ x.1

noncomputable instance : DecidableRel rowGE :=
  fun x y => Real.decidableLE y.1 x.1

instance : IsTotal (ℝ × String × Entry) rowGE := ⟨fun a b => le_total b.1 a.1⟩

instance : IsTrans (ℝ × String × Entry) rowGE :=
  ⟨fun _ _ _ h1 h2 => le_trans h2 h1⟩

/-- Function `main` of `search.py`, from the similarity loop to `results[:top_k]`: score
every cached record against the query embedding, sort descending, take the
first `top_k` (no threshold filter). -/
noncomputable def search_results (query_embedding : List ℚ)
    (cache : List (String × Entry)) (top_k : ℕ) : List (ℝ × String × Entry) :=
  let results := cache.map fun p => (cosine_similarity query_embedding p.2.embedding, p.1, p.2)
  (List.insertionSort rowGE results).take top_k

/-! ## Basic lemmas about the similarity primitives -/

theorem cosine_similarity_def (a b : List ℚ) :
    cosine_similarity a b =
      if Real.sqrt ((sumSq a : ℚ) : ℝ) = 0 ∨ Real.sqrt ((sumSq b : ℚ) : ℝ) = 0 then 0
      else ((dotQ a b : ℚ) : ℝ) /
        (Real.sqrt ((sumSq a : ℚ) : ℝ) * Real.sqrt ((sumSq b : ℚ) : ℝ)) := rfl

theorem dotQ_nil_left (b : List ℚ) : dotQ [] b = 0 := rfl

theorem dotQ_cons_cons (x y : ℚ) (a b : List ℚ) :
    dotQ (x :: a) (y :: b) = x * y + dotQ a b := by
  simp [dotQ]

theorem dotQ_comm : ∀ a b : List ℚ, dotQ a b = dotQ b a
  | [], b => by cases b <;> simp [dotQ]
  | _ :: _, [] => by simp [dotQ]
  | x :: a, y :: b => by
    rw [dotQ_cons_cons, dotQ_cons_cons, dotQ_comm a b, mul_comm]

theorem dotQ_self : ∀ v : List ℚ, dotQ v v = sumSq v
  | [] => rfl
  | x :: v => by rw [dotQ_cons_cons, dotQ_self v]; simp [sumSq]

theorem sumSq_nonneg : ∀ a : List ℚ, 0 ≤ sumSq a
  | [] => le_refl 0
  | x :: a => by
    have h := sumSq_nonneg a
    have h2 : 0 ≤ x * x := mul_self_nonneg x
    simpa [sumSq] using add_nonneg h2 h

theorem sumSq_eq_zero_iff : ∀ a : List ℚ, sumSq a = 0 ↔ ∀ x ∈ a, x = 0
  | [] => by simp [sumSq]
  | x :: a => by
    have h1 : (0 : ℚ) ≤ x * x := mul_self_nonneg x
    have h2 := sumSq_nonneg a
    have : sumSq (x :: a) = x * x + sumSq a := by simp [sumSq]
    rw [this, add_eq_zero_iff_of_nonneg h1 h2, mul_self_eq_zero,
      sumSq_eq_zero_iff a]
    simp

theorem zip_take_take :
    ∀ a b : List ℚ, (a.take b.length).zip (b.take a.length) = a.zip b
  | [], b => by simp
  | _ :: _, [] => by simp
  | x :: a, y :: b => by
    simpa using zip_take_take a b

/-- Claim C6. Cosine similarity is symmetric, equals `1` on any nonzero vector
paired with itself, and equals `0` whenever either argument is the zero
vector. -/
theorem cosine_similarity_algebraic_spec :
    (∀ a b : List ℚ, cosine_similarity a b = cosine_similarity b a) ∧
    (∀ v : List ℚ, (∃ x ∈ v, x ≠ 0) → cosine_similarity v v = 1) ∧
    (∀ a b : List ℚ, ((∀ x ∈ a, x = 0) ∨ (∀ x ∈ b, x = 0)) →
      cosine_similarity a b = 0) := by
  refine ⟨fun a b => ?_, fun v hv => ?_, fun a b hab => ?_⟩
  · rw [cosine_similarity_def, cosine_similarity_def, dotQ_comm a b]
    by_cases h : Real.sqrt ((sumSq a : ℚ) : ℝ) = 0 ∨ Real.sqrt ((sumSq b : ℚ) : ℝ) = 0
    · rw [if_pos h, if_pos (Or.symm h)]
    · rw [if_neg h, if_neg (fun h' => h (Or.symm h')), mul_comm]
  · obtain ⟨x, hx, hx0⟩ := hv
    have hS : 0 < sumSq v := by
      rcases lt_or_eq_of_le (sumSq_nonneg v) with h | h
      · exact h
      · exact absurd ((sumSq_eq_zero_iff v).mp h.symm x hx) hx0
    have hS' : (0 : ℝ) < ((sumSq v : ℚ) : ℝ) := by exact_mod_cast hS
    rw [cosine_similarity_def, dotQ_self, if_neg]
    · rw [Real.mul_self_sqrt hS'.le, div_self hS'.ne']
    · rw [not_or]
      constructor <;> exact Real.sqrt_ne_zero'.mpr hS'
  · rw [cosine_similarity_def, if_pos]
    rcases hab with h | h
    · left
      have : sumSq a = 0 := (sumSq_eq_zero_iff a).mpr h
      rw [this]; simp
    · right
      have : sumSq b = 0 := (sumSq_eq_zero_iff b).mpr h
      rw [this]; simp

/-- Witness for C6 at concrete vectors. -/
theorem cosine_similarity_algebraic_spec_witness :
    cosine_similarity [1] [2] = cosine_similarity [2] [1] ∧
    cosine_similarity [3, 4] [3, 4] = 1 ∧
    cosine_similarity [0] [1] = 0 :=
  ⟨cosine_similarity_algebraic_spec.1 [1] [2],
   cosine_similarity_algebraic_spec.2.1 [3, 4] ⟨3, by simp, by norm_num⟩,
   cosine_similarity_algebraic_spec.2.2 [0] [1] (Or.inl (by simp))⟩

/-- Claim C9. On vectors of unequal length `cosine_similarity` is total and
returns the dot product over the common prefix (`zip` truncates to the
shorter length) divided by the product of the two full norms. -/
theorem cosine_similarity_mixed_lengths (a b : List ℚ)
    (ha : sumSq a ≠ 0) (hb : sumSq b ≠ 0) :
    cosine_similarity a b =
      ((dotQ (a.take b.length) (b.take a.length) : ℚ) : ℝ) /
        (Real.sqrt ((sumSq a : ℚ) : ℝ) * Real.sqrt ((sumSq b : ℚ) : ℝ)) := by
  have ha' : (0 : ℝ) < ((sumSq a : ℚ) : ℝ) := by
    exact_mod_cast lt_of_le_of_ne (sumSq_nonneg a) (Ne.symm ha)
  have hb' : (0 : ℝ) < ((sumSq b : ℚ) : ℝ) := by
    exact_mod_cast lt_of_le_of_ne (sumSq_nonneg b) (Ne.symm hb)
  rw [cosine_similarity_def, if_neg]
  · have : dotQ (a.take b.length) (b.take a.length) = dotQ a b := by
      unfold dotQ
      rw [zip_take_take]
    rw [this]
  · rw [not_or]
    exact ⟨Real.sqrt_ne_zero'.mpr ha', Real.sqrt_ne_zero'.mpr hb'⟩

/-- Witness for C9 at vectors of lengths 2 and 3. -/
theorem cosine_similarity_mixed_lengths_witness :
    sumSq [3, 4] ≠ 0 ∧ sumSq [5, 12, 99] ≠ 0 ∧
    cosine_similarity [3, 4] [5, 12, 99] =
      ((dotQ (([3, 4] : List ℚ).take 3) (([5, 12, 99] : List ℚ).take 2) : ℚ) : ℝ) /
        (Real.sqrt ((sumSq [3, 4] : ℚ) : ℝ) *
          Real.sqrt ((sumSq [5, 12, 99] : ℚ) : ℝ)) := by
  have h1 : sumSq [3, 4] ≠ 0 := by norm_num [sumSq]
  have h2 : sumSq [5, 12, 99] ≠ 0 := by norm_num [sumSq]
  exact ⟨h1, h2, cosine_similarity_mixed_lengths [3, 4] [5, 12, 99] h1 h2⟩

/-! ## Link discovery: membership characterization -/

theorem mem_allPairs {α : Type} :
    ∀ (l : List α) (p : α × α),
      p ∈ allPairs l ↔
        ∃ i j, ∃ (hi : i < l.length) (hj : j < l.length),
          i < j ∧ p = (l.get ⟨i, hi⟩, l.get ⟨j, hj⟩)
  | [], p => by
    constructor
    · intro h
      simp [allPairs] at h
    · rintro ⟨i, j, hi, _, _, _⟩
      exact absurd hi (Nat.not_lt_zero i)
  | x :: rest, p => by
    constructor
    · intro h
      rcases List.mem_append.mp h with h | h
      · obtain ⟨y, hy, rfl⟩ := List.mem_map.mp h
        obtain ⟨⟨j, hj⟩, rfl⟩ := List.mem_iff_get.mp hy
        exact ⟨0, j + 1, Nat.succ_pos _, Nat.succ_lt_succ hj,
          Nat.succ_pos _, rfl⟩
      · obtain ⟨i, j, hi, hj, hij, rfl⟩ := (mem_allPairs rest p).mp h
        exact ⟨i + 1, j + 1, Nat.succ_lt_succ hi, Nat.succ_lt_succ hj,
          Nat.succ_lt_succ hij, rfl⟩
    · rintro ⟨i, j, hi, hj, hij, rfl⟩
      rcases i with _ | i
      · rcases j with _ | j
        · exact absurd hij (lt_irrefl 0)
        · refine List.mem_append.mpr (Or.inl (List.mem_map.mpr ?_))
          refine ⟨rest.get ⟨j, Nat.lt_of_succ_lt_succ hj⟩,
            rest.get_mem _ _, rfl⟩
      · rcases j with _ | j
        · exact absurd hij (Nat.not_lt_zero _).elim
        · refine List.mem_append.mpr (Or.inr ?_)
          refine (mem_allPairs rest _).mpr
            ⟨i, j, Nat.lt_of_succ_lt_succ hi, Nat.lt_of_succ_lt_succ hj,
              Nat.lt_of_succ_lt_succ hij, rfl⟩

theorem find_links_eq (cache : List (String × Entry)) (threshold max_threshold : ℚ) :
    find_links cache threshold max_threshold =
      List.insertionSort linkGE
        ((allPairs cache).filterMap fun p =>
          if (threshold : ℝ) ≤ cosine_similarity p.1.2.embedding p.2.2.embedding ∧
              cosine_similarity p.1.2.embedding p.2.2.embedding < (max_threshold : ℝ) then
            some (mkLink p.1 p.2 (cosine_similarity p.1.2.embedding p.2.2.embedding))
          else none) := rfl

/-- Claim C2. `find_links cache threshold` (with `max_threshold` left at its
default `0.98`) contains exactly the links built from index pairs `i < j`
of cached notes whose cosine similarity `s` satisfies
`threshold ≤ s < 0.98`: the lower bound is inclusive and the upper bound is
exclusive. -/
theorem find_links_membership (cache : List (String × Entry)) (threshold : ℚ)
    (l : Link) :
    l ∈ find_links cache threshold ↔
      ∃ i j, ∃ (hi : i < cache.length) (hj : j < cache.length), i < j ∧
        ((threshold : ℝ) ≤
            cosine_similarity (cache.get ⟨i, hi⟩).2.embedding
              (cache.get ⟨j, hj⟩).2.embedding ∧
          cosine_similarity (cache.get ⟨i, hi⟩).2.embedding
              (cache.get ⟨j, hj⟩).2.embedding < ((98 / 100 : ℚ) : ℝ)) ∧
        l = mkLink (cache.get ⟨i, hi⟩) (cache.get ⟨j, hj⟩)
              (cosine_similarity (cache.get ⟨i, hi⟩).2.embedding
                (cache.get ⟨j, hj⟩).2.embedding) := by
  rw [show find_links cache threshold =
      find_links cache threshold (98 / 100) from rfl, find_links_eq]
  rw [List.mem_insertionSort, List.mem_filterMap]
  constructor
  · rintro ⟨p, hp, hsome⟩
    rw [Option.ite_none_right_eq_some, Option.some_inj] at hsome
    obtain ⟨hcond, hlink⟩ := hsome
    obtain ⟨i, j, hi, hj, hij, rfl⟩ := (mem_allPairs cache p).mp hp
    exact ⟨i, j, hi, hj, hij, hcond, hlink.symm⟩
  · rintro ⟨i, j, hi, hj, hij, hcond, rfl⟩
    refine ⟨(cache.get ⟨i, hi⟩, cache.get ⟨j, hj⟩),
      (mem_allPairs cache _).mpr ⟨i, j, hi, hj, hij, rfl⟩, ?_⟩
    rw [Option.ite_none_right_eq_some, Option.some_inj]
    exact ⟨hcond, rfl⟩

/-! ## Query engine: top-K shape of search results -/

/-- Claim C8. For a non-empty cache, `search_results` returns exactly
`min top_k |cache|` rows, sorted non-increasing by score, and applies no
threshold filter: when `top_k` covers the cache, the result is a
permutation of the full scored cache, however low the scores are. -/
theorem search_results_shape (q : List ℚ) (cache : List (String × Entry))
    (top_k : ℕ) (hne : cache ≠ []) :
    (search_results q cache top_k).length = min top_k cache.length ∧
    List.Sorted rowGE (search_results q cache top_k) ∧
    (cache.length ≤ top_k →
      List.Perm (search_results q cache top_k)
        (cache.map fun p => (cosine_similarity q p.2.embedding, p.1, p.2))) := by
  refine ⟨?_, ?_, fun hk => ?_⟩
  · show ((List.insertionSort rowGE _).take top_k).length = _
    rw [List.length_take, List.length_insertionSort, List.length_map]
  · show List.Sorted rowGE ((List.insertionSort rowGE _).take top_k)
    exact (List.sorted_insertionSort rowGE _).sublist (List.take_sublist _ _)
  · show List.Perm ((List.insertionSort rowGE _).take top_k) _
    rw [List.take_of_length_le (by
      rw [List.length_insertionSort, List.length_map]; exact hk)]
    exact List.perm_insertionSort rowGE _

/-- Witness for C8: a two-record cache searched with `top_k = 5`. -/
theorem search_results_shape_witness :
    (search_results [1, 0]
        [("a.md", ⟨"/v/a.md", "a", "a.md", 1, [1, 0], "a"⟩),
         ("b.md", ⟨"/v/b.md", "b", "b.md", 2, [0, 1], "b"⟩)] 5).length = min 5 2 ∧
    List.Sorted rowGE (search_results [1, 0]
        [("a.md", ⟨"/v/a.md", "a", "a.md", 1, [1, 0], "a"⟩),
         ("b.md", ⟨"/v/b.md", "b", "b.md", 2, [0, 1], "b"⟩)] 5) ∧
    List.Perm (search_results [1, 0]
        [("a.md", ⟨"/v/a.md", "a", "a.md", 1, [1, 0], "a"⟩),
         ("b.md", ⟨"/v/b.md", "b", "b.md", 2, [0, 1], "b"⟩)] 5)
      ([("a.md", ⟨"/v/a.md", "a", "a.md", 1, [1, 0], "a"⟩),
        ("b.md", ⟨"/v/b.md", "b", "b.md", 2, [0, 1], "b"⟩)].map
        (fun p => (cosine_similarity [1, 0] p.2.embedding, p.1, p.2))) := by
  have h := search_results_shape [1, 0]
    [("a.md", ⟨"/v/a.md", "a", "a.md", 1, [1, 0], "a"⟩),
     ("b.md", ⟨"/v/b.md", "b", "b.md", 2, [0, 1], "b"⟩)] 5 (by simp)
  exact ⟨h.1, h.2.1, h.2.2 (by simp)⟩

/-! ## Normalizer: whitespace stage is idempotent, the full pipeline is not -/

/-- Invariant of the newline-collapse scan: after having just emitted `k`
consecutive newlines, the remaining text never extends any newline run
beyond two. -/
inductive GoodAfter : ℕ → List Char → Prop where
  | nil (k : ℕ) : GoodAfter k []
  | newline {k : ℕ} {rest : List Char} (hk : k < 2) (h : GoodAfter (k + 1) rest) :
      GoodAfter k ('\n' :: rest)
  | other {k : ℕ} {c : Char} {rest : List Char} (hc : c ≠ '\n') (h : GoodAfter 0 rest) :
      GoodAfter k (c :: rest)

theorem collapseAux_eq_self {k : ℕ} {s : List Char} (h : GoodAfter k s) :
    collapseAux k s = s := by
  induction h with
  | nil k => rfl
  | newline hk _ ih => simp [collapseAux, Nat.not_le.mpr hk, ih]
  | other hc _ ih => simp [collapseAux, hc, ih]

theorem goodAfter_collapseAux : ∀ (s : List Char) (k : ℕ), GoodAfter k (collapseAux k s)
  | [], k => GoodAfter.nil k
  | c :: rest, k => by
    by_cases hc : c = '\n'
    · subst hc
      by_cases hk : 2 ≤ k
      · simpa [collapseAux, hk] using goodAfter_collapseAux rest k
      · simpa [collapseAux, hk] using
          GoodAfter.newline (Nat.lt_of_not_le hk) (goodAfter_collapseAux rest (k + 1))
    · simpa [collapseAux, hc] using
        GoodAfter.other hc (goodAfter_collapseAux rest 0)

theorem goodAfter_dropWhile :
    ∀ {s : List Char} {k : ℕ}, GoodAfter k s →
      GoodAfter 0 (s.dropWhile isPySpace)
  | [], _, _ => GoodAfter.nil 0
  | c :: rest, _, h => by
    by_cases hp : isPySpace c
    · rw [List.dropWhile_cons_of_pos hp]
      cases h with
      | newline hk h' => exact goodAfter_dropWhile h'
      | other hc h' => exact goodAfter_dropWhile h'
    · rw [List.dropWhile_cons_of_neg hp]
      cases h with
      | newline hk h' => exact absurd (by decide : isPySpace '\n' = true) hp
      | other hc h' => exact GoodAfter.other hc h'

theorem goodAfter_dropTrailingWs :
    ∀ {s : List Char} {k : ℕ}, GoodAfter k s → GoodAfter k (dropTrailingWs s)
  | [], k, _ => GoodAfter.nil k
  | c :: rest, k, h => by
    cases h with
    | newline hk h' =>
      show GoodAfter _ (let r := dropTrailingWs rest; _)
      by_cases hr : (dropTrailingWs rest).isEmpty
      · simp only [dropTrailingWs, hr, if_true]
        simp [show isPySpace '\n' = true from rfl]
        exact GoodAfter.nil _
      · simp only [dropTrailingWs, hr, if_false]
        exact GoodAfter.newline hk (goodAfter_dropTrailingWs h')
    | other hc h' =>
      by_cases hr : (dropTrailingWs rest).isEmpty
      · simp only [dropTrailingWs, hr, if_true]
        by_cases hw : isPySpace c
        · simp [hw]; exact GoodAfter.nil _
        · simp [hw]; exact GoodAfter.other hc (GoodAfter.nil 0)
      · simp only [dropTrailingWs, hr, if_false]
        exact GoodAfter.other hc (goodAfter_dropTrailingWs h')

theorem goodAfter_pyStrip {s : List Char} {k : ℕ} (h : GoodAfter k s) :
    GoodAfter 0 (pyStrip s) :=
  goodAfter_dropTrailingWs (goodAfter_dropWhile h)

theorem dropWhile_shape (p : Char → Bool) :
    ∀ s : List Char, s.dropWhile p = [] ∨
      ∃ c rest, s.dropWhile p = c :: rest ∧ p c = false
  | [] => Or.inl rfl
  | c :: rest => by
    by_cases hp : p c
    · rw [List.dropWhile_cons_of_pos hp]
      exact dropWhile_shape p rest
    · rw [List.dropWhile_cons_of_neg hp]
      exact Or.inr ⟨c, rest, rfl, Bool.of_not_eq_true hp⟩

theorem dropTrailingWs_shape (c : Char) (rest : List Char) :
    dropTrailingWs (c :: rest) = [] ∨
      ∃ r, dropTrailingWs (c :: rest) = c :: r := by
  by_cases hr : (dropTrailingWs rest).isEmpty
  · by_cases hw : isPySpace c
    · left; simp [dropTrailingWs, hr, hw]
    · right; exact ⟨[], by simp [dropTrailingWs, hr, hw]⟩
  · right; exact ⟨dropTrailingWs rest, by simp [dropTrailingWs, hr]⟩

theorem dropTrailingWs_idem : ∀ s : List Char,
    dropTrailingWs (dropTrailingWs s) = dropTrailingWs s
  | [] => rfl
  | c :: rest => by
    by_cases hr : (dropTrailingWs rest).isEmpty
    · by_cases hw : isPySpace c
      · simp [dropTrailingWs, hr, hw]
      · simp [dropTrailingWs, hr, hw]
    · have step : dropTrailingWs (c :: rest) = c :: dropTrailingWs rest := by
        simp [dropTrailingWs, hr]
      rw [step]
      have ih := dropTrailingWs_idem rest
      simp [dropTrailingWs, ih, hr]

theorem pyStrip_idem (s : List Char) : pyStrip (pyStrip s) = pyStrip s := by
  unfold pyStrip
  have hfix : (dropTrailingWs (s.dropWhile isPySpace)).dropWhile isPySpace =
      dropTrailingWs (s.dropWhile isPySpace) := by
    rcases dropWhile_shape isPySpace s with h | ⟨c, rest, h, hc⟩
    · rw [h]; rfl
    · rw [h]
      rcases dropTrailingWs_shape c rest with h2 | ⟨r, h2⟩
      · rw [h2]; rfl
      · rw [h2, List.dropWhile_cons_of_neg (by simp [hc])]
  rw [hfix, dropTrailingWs_idem]

/-- Claim C7, amended. The final whitespace-normalization stage of
`clean_text` (collapse runs of 3+ newlines to 2, then `strip()`) is
idempotent. -/
theorem normalizeWhitespace_idempotent (s : List Char) :
    normalizeWhitespace (normalizeWhitespace s) = normalizeWhitespace s := by
  unfold normalizeWhitespace collapseNewlines
  have g : GoodAfter 0 (pyStrip (collapseAux 0 s)) :=
    goodAfter_pyStrip (goodAfter_collapseAux s 0)
  rw [collapseAux_eq_self g, pyStrip_idem]

/-- Claim C7, counterexample. The full normalizer is not idempotent: removing a
URL exposes a front-matter-style block at the start of the text, which only
a second pass strips. -/
theorem clean_text_not_idempotent :
    clean_text (clean_text "https://x\n---\na\n---\nrest") ≠
      clean_text "https://x\n---\na\n---\nrest" := by
  decide

/-! ## Dict-model lemmas -/

theorem dictGet_insert_self :
    ∀ (l : List (String × Entry)) (k : String) (v : Entry),
      dictGet (dictInsert l k v) k = some v
  | [], k, v => by simp [dictGet, dictInsert]
  | (k', v') :: rest, k, v => by
    by_cases h : k' = k
    · simp [dictGet, dictInsert, h]
    · simp [dictGet, dictInsert, h, dictGet_insert_self rest k v]

theorem dictGet_insert_ne :
    ∀ (l : List (String × Entry)) (k : String) (v : Entry) (x : String),
      x ≠ k → dictGet (dictInsert l k v) x = dictGet l x
  | [], k, v, x, hx => by
    have hkx : ¬ k = x := fun h => hx h.symm
    simp [dictGet, dictInsert, hkx]
  | (k', v') :: rest, k, v, x, hx => by
    by_cases h : k' = k
    · subst h
      have hkx : ¬ k' = x := fun h => hx h.symm
      simp [dictGet, dictInsert, hkx]
    · simp only [dictInsert, if_neg h]
      by_cases h2 : k' = x
      · simp [dictGet, h2]
      · simp [dictGet, h2, dictGet_insert_ne rest k v x hx]

theorem dictGet_filter (q : String → Bool) :
    ∀ (l : List (String × Entry)) (k : String),
      dictGet (l.filter fun p => q p.1) k =
        if q k = true then dictGet l k else none
  | [], k => by simp [dictGet]
  | (a, b) :: rest, k => by
    by_cases hq : q a
    · rw [List.filter_cons_of_pos (by simpa using hq)]
      by_cases hk : a = k
      · subst hk
        simp [dictGet, hq]
      · simp [dictGet, hk, dictGet_filter q rest k]
    · rw [List.filter_cons_of_neg (by simpa using hq)]
      by_cases hk : a = k
      · subst hk
        simp [dictGet, Bool.of_not_eq_true hq, dictGet_filter q rest a]
      · simp [dictGet, hk, dictGet_filter q rest k]

theorem mem_keys_dictInsert :
    ∀ (l : List (String × Entry)) (k : String) (v : Entry) (x : String),
      x ∈ (dictInsert l k v).map Prod.fst ↔ x ∈ l.map Prod.fst ∨ x = k
  | [], k, v, x => by simp [dictInsert]
  | (a, b) :: rest, k, v, x => by
    by_cases h : a = k
    · subst h
      simp [dictInsert]
      tauto
    · simp [dictInsert, h, mem_keys_dictInsert rest k v x]
      tauto

theorem nodup_keys_dictInsert :
    ∀ (l : List (String × Entry)) (k : String) (v : Entry),
      (l.map Prod.fst).Nodup → ((dictInsert l k v).map Prod.fst).Nodup
  | [], k, v, _ => by simp [dictInsert]
  | (a, b) :: rest, k, v, h => by
    simp only [List.map_cons, List.nodup_cons] at h
    by_cases hak : a = k
    · subst hak
      simpa [dictInsert, List.nodup_cons] using h
    · simp only [dictInsert, if_neg hak, List.map_cons, List.nodup_cons]
      refine ⟨?_, nodup_keys_dictInsert rest k v h.2⟩
      rw [mem_keys_dictInsert]
      rintro (hmem | rfl)
      · exact h.1 hmem
      · exact hak rfl

/-! ## Branch lemmas for one loop iteration -/

theorem stepNote_read_err (force : Bool) (maxLen : ℕ)
    (provider : String → ProviderOutcome) (st : RunState) (n : Note)
    (h : n.content? = none) :
    stepNote force maxLen provider st n =
      .ok { st with error_count := st.error_count + 1,
                    active_keys := n.rel :: st.active_keys } := by
  simp [stepNote, h]

theorem stepNote_empty (force : Bool) (maxLen : ℕ)
    (provider : String → ProviderOutcome) (st : RunState) (n : Note) (c : String)
    (hc : n.content? = some c)
    (he : (pyStrip (clean_text c).data).isEmpty = true) :
    stepNote force maxLen provider st n =
      .ok { st with skip_count := st.skip_count + 1,
                    active_keys := n.rel :: st.active_keys } := by
  simp [stepNote, hc, he]

theorem stepNote_fresh (force : Bool) (maxLen : ℕ)
    (provider : String → ProviderOutcome) (st : RunState) (n : Note) (c : String)
    (hc : n.content? = some c)
    (he : (pyStrip (clean_text c).data).isEmpty = false)
    (hf : freshSkip force st.cache n.rel n.mtime = true) :
    stepNote force maxLen provider st n =
      .ok { st with skip_count := st.skip_count + 1,
                    active_keys := n.rel :: st.active_keys } := by
  simp [stepNote, hc, he, hf]

theorem stepNote_embed_ok (force : Bool) (maxLen : ℕ)
    (provider : String → ProviderOutcome) (st : RunState) (n : Note) (c : String)
    (emb : List ℚ) (hc : n.content? = some c)
    (he : (pyStrip (clean_text c).data).isEmpty = false)
    (hf : freshSkip force st.cache n.rel n.mtime = false)
    (hp : provider ((clean_text c).take maxLen) = .ok emb) :
    stepNote force maxLen provider st n =
      .ok { st with
            cache := dictInsert st.cache n.rel
              { path := n.path, stem := n.stem, rel := n.rel, mtime := n.mtime,
                embedding := emb, text_preview := (clean_text c).take 200 },
            new_count := st.new_count + 1,
            active_keys := n.rel :: st.active_keys } := by
  simp [stepNote, hc, he, hf, embed_text, hp]

theorem stepNote_embed_fail (force : Bool) (maxLen : ℕ)
    (provider : String → ProviderOutcome) (st : RunState) (n : Note) (c : String)
    (hc : n.content? = some c)
    (he : (pyStrip (clean_text c).data).isEmpty = false)
    (hf : freshSkip force st.cache n.rel n.mtime = false)
    (hp : ∀ v, provider ((clean_text c).take maxLen) ≠ .ok v) :
    stepNote force maxLen provider st n = .error 1 := by
  simp only [stepNote, hc, he, hf]
  cases hq : provider ((clean_text c).take maxLen) with
  | ok v => exact absurd hq (hp v)
  | networkError => simp [embed_text, hq]
  | httpError => simp [embed_text, hq]
  | missingApiKey => simp [embed_text, hq]
  | malformedResponse => simp [embed_text, hq]

/-- Exhaustive listing of the situations one loop iteration can be in. -/
theorem stepNote_branches (force : Bool) (maxLen : ℕ)
    (provider : String → ProviderOutcome) (st : RunState) (n : Note) :
    n.content? = none ∨
    (∃ c, n.content? = some c ∧ (pyStrip (clean_text c).data).isEmpty = true) ∨
    (∃ c, n.content? = some c ∧ (pyStrip (clean_text c).data).isEmpty = false ∧
      freshSkip force st.cache n.rel n.mtime = true) ∨
    (∃ c emb, n.content? = some c ∧
      (pyStrip (clean_text c).data).isEmpty = false ∧
      freshSkip force st.cache n.rel n.mtime = false ∧
      provider ((clean_text c).take maxLen) = .ok emb) ∨
    (∃ c, n.content? = some c ∧ (pyStrip (clean_text c).data).isEmpty = false ∧
      freshSkip force st.cache n.rel n.mtime = false ∧
      ∀ v, provider ((clean_text c).take maxLen) ≠ .ok v) := by
  cases hc : n.content? with
  | none => exact Or.inl rfl
  | some c =>
    cases he : (pyStrip (clean_text c).data).isEmpty with
    | true => exact Or.inr (Or.inl ⟨c, rfl, he⟩)
    | false =>
      cases hf : freshSkip force st.cache n.rel n.mtime with
      | true => exact Or.inr (Or.inr (Or.inl ⟨c, rfl, he, rfl⟩))
      | false =>
        cases hq : provider ((clean_text c).take maxLen) with
        | ok v => exact Or.inr (Or.inr (Or.inr (Or.inl ⟨c, v, rfl, he, rfl, hq⟩)))
        | networkError =>
          exact Or.inr (Or.inr (Or.inr (Or.inr
            ⟨c, rfl, he, rfl, fun v h => by rw [hq] at h; cases h⟩)))
        | httpError =>
          exact Or.inr (Or.inr (Or.inr (Or.inr
            ⟨c, rfl, he, rfl, fun v h => by rw [hq] at h; cases h⟩)))
        | missingApiKey =>
          exact Or.inr (Or.inr (Or.inr (Or.inr
            ⟨c, rfl, he, rfl, fun v h => by rw [hq] at h; cases h⟩)))
        | malformedResponse =>
          exact Or.inr (Or.inr (Or.inr (Or.inr
            ⟨c, rfl, he, rfl, fun v h => by rw [hq] at h; cases h⟩)))

/-! ## Run-level lemmas -/

/-- The cache holds a record for `k` whose stored modification time is at
least `m` (the code's `cached["mtime"] >= mtime` freshness invariant). -/
def FreshAt (cache : List (String × Entry)) (k : String) (m : ℚ) : Prop :=
  ∃ e, dictGet cache k = some e ∧ m ≤ e.mtime

theorem freshSkip_eq_true_iff (cache : List (String × Entry)) (k : String)
    (m : ℚ) : freshSkip false cache k m = true ↔ FreshAt cache k m := by
  unfold freshSkip FreshAt
  cases hget : dictGet cache k with
  | none => simp
  | some e => simp [hget]

theorem runNotes_cons (force : Bool) (maxLen : ℕ)
    (provider : String → ProviderOutcome) (n : Note) (rest : List Note)
    (st : RunState) :
    runNotes force maxLen provider (n :: rest) st =
      match stepNote force maxLen provider st n with
      | .error e => .error e
      | .ok st' => runNotes force maxLen provider rest st' := rfl

theorem runNotes_append (force : Bool) (maxLen : ℕ)
    (provider : String → ProviderOutcome) :
    ∀ (l1 l2 : List Note) (st : RunState),
      runNotes force maxLen provider (l1 ++ l2) st =
        match runNotes force maxLen provider l1 st with
        | .error e => .error e
        | .ok st' => runNotes force maxLen provider l2 st'
  | [], l2, st => rfl
  | n :: rest, l2, st => by
    rw [List.cons_append, runNotes_cons, runNotes_cons]
    cases stepNote force maxLen provider st n with
    | error e => rfl
    | ok st' => exact runNotes_append force maxLen provider rest l2 st'

theorem exceptMap_eq_ok {f : RunState → RunState} {x : Except ℕ RunState}
    {y : RunState} : x.map f = .ok y ↔ ∃ a, x = .ok a ∧ f a = y := by
  cases x <;> simp [Except.map]

theorem runEmbed_eq (maxLen : ℕ) (provider : String → ProviderOutcome)
    (notes : List Note) (loaded : List (String × Entry)) :
    runEmbed false maxLen provider notes loaded =
      (runNotes false maxLen provider notes (initState loaded)).map pruneState := rfl

/-- Every successful step conses the note's key onto `active_keys`. -/
theorem stepNote_ok_active {force : Bool} {maxLen : ℕ}
    {provider : String → ProviderOutcome} {st st' : RunState} {n : Note}
    (h : stepNote force maxLen provider st n = .ok st') :
    st'.active_keys = n.rel :: st.active_keys := by
  rcases stepNote_branches force maxLen provider st n with
    hb | ⟨c, hc, he⟩ | ⟨c, hc, he, hf⟩ | ⟨c, emb, hc, he, hf, hq⟩ | ⟨c, hc, he, hf, hq⟩
  · rw [stepNote_read_err force maxLen provider st n hb] at h
    cases h; rfl
  · rw [stepNote_empty force maxLen provider st n c hc he] at h
    cases h; rfl
  · rw [stepNote_fresh force maxLen provider st n c hc he hf] at h
    cases h; rfl
  · rw [stepNote_embed_ok force maxLen provider st n c emb hc he hf hq] at h
    cases h; rfl
  · rw [stepNote_embed_fail force maxLen provider st n c hc he hf hq] at h
    cases h

/-- A successful run accumulates exactly the relative paths of the processed
notes on top of the initial `active_keys`. -/
theorem runNotes_active (force : Bool) (maxLen : ℕ)
    (provider : String → ProviderOutcome) :
    ∀ (notes : List Note) (st st' : RunState),
      runNotes force maxLen provider notes st = .ok st' →
      st'.active_keys = (notes.map Note.rel).reverse ++ st.active_keys
  | [], st, st', h => by
    cases h; simp
  | n :: rest, st, st', h => by
    rw [runNotes_cons] at h
    cases hs : stepNote force maxLen provider st n with
    | error e => rw [hs] at h; cases h
    | ok st1 =>
      rw [hs] at h
      have ih := runNotes_active force maxLen provider rest st1 st' h
      rw [ih, stepNote_ok_active hs]
      simp

/-- One successful step preserves `FreshAt` at every key (forced refresh
off): a skip leaves the cache alone, and an overwrite at the key only
happens when the note's modification time strictly exceeds the stored one. -/
theorem stepNote_preserves_freshAt {maxLen : ℕ}
    {provider : String → ProviderOutcome} {st st' : RunState} {n : Note}
    {k : String} {m : ℚ}
    (hs : stepNote false maxLen provider st n = .ok st')
    (h : FreshAt st.cache k m) : FreshAt st'.cache k m := by
  rcases stepNote_branches false maxLen provider st n with
    hb | ⟨c, hc, he⟩ | ⟨c, hc, he, hf⟩ | ⟨c, emb, hc, he, hf, hq⟩ | ⟨c, hc, he, hf, hq⟩
  · rw [stepNote_read_err false maxLen provider st n hb] at hs
    cases hs; exact h
  · rw [stepNote_empty false maxLen provider st n c hc he] at hs
    cases hs; exact h
  · rw [stepNote_fresh false maxLen provider st n c hc he hf] at hs
    cases hs; exact h
  · rw [stepNote_embed_ok false maxLen provider st n c emb hc he hf hq] at hs
    cases hs
    by_cases hk : k = n.rel
    · subst hk
      obtain ⟨e, hget, hm⟩ := h
      have hlt : e.mtime < n.mtime := by
        unfold freshSkip at hf
        rw [hget] at hf
        simpa using hf
      exact ⟨_, dictGet_insert_self st.cache n.rel _,
        le_of_lt (lt_of_le_of_lt hm hlt)⟩
    · obtain ⟨e, hget, hm⟩ := h
      exact ⟨e, by rw [dictGet_insert_ne st.cache n.rel _ k hk]; exact hget, hm⟩
  · rw [stepNote_embed_fail false maxLen provider st n c hc he hf hq] at hs
    cases hs

theorem runNotes_preserves_freshAt {maxLen : ℕ}
    {provider : String → ProviderOutcome} :
    ∀ {notes : List Note} {st st' : RunState} {k : String} {m : ℚ},
      runNotes false maxLen provider notes st = .ok st' →
      FreshAt st.cache k m → FreshAt st'.cache k m := by
  intro notes
  induction notes with
  | nil => intro st st' k m h hf; cases h; exact hf
  | cons n rest ih =>
    intro st st' k m h hf
    rw [runNotes_cons] at h
    cases hs : stepNote false maxLen provider st n with
    | error e => rw [hs] at h; cases h
    | ok st1 =>
      rw [hs] at h
      exact ih h (stepNote_preserves_freshAt hs hf)

/-- After a successful run, every readable note with non-empty normalized
text has a fresh cache record. -/
theorem runNotes_establishes_freshAt {maxLen : ℕ}
    {provider : String → ProviderOutcome} :
    ∀ {notes : List Note} {st st' : RunState},
      runNotes false maxLen provider notes st = .ok st' →
      ∀ n ∈ notes, ∀ c, n.content? = some c →
        (pyStrip (clean_text c).data).isEmpty = false →
        FreshAt st'.cache n.rel n.mtime := by
  intro notes
  induction notes with
  | nil => intro st st' _ n hn; simp at hn
  | cons n0 rest ih =>
    intro st st' h n hn c hc hne
    rw [runNotes_cons] at h
    cases hs : stepNote false maxLen provider st n0 with
    | error e => rw [hs] at h; cases h
    | ok st1 =>
      rw [hs] at h
      rcases List.mem_cons.mp hn with rfl | hmem
      · rcases stepNote_branches false maxLen provider st n with
          hb | ⟨c', hc', he'⟩ | ⟨c', hc', he', hf'⟩ |
          ⟨c', emb, hc', he', hf', hq'⟩ | ⟨c', hc', he', hf', hq'⟩
        · rw [hb] at hc; cases hc
        · rw [hc'] at hc; cases hc; rw [he'] at hne; cases hne
        · have hfr : FreshAt st.cache n.rel n.mtime :=
            (freshSkip_eq_true_iff _ _ _).mp hf'
          rw [stepNote_fresh _ _ _ _ _ _ hc' he' hf'] at hs
          cases hs
          exact runNotes_preserves_freshAt h hfr
        · rw [stepNote_embed_ok _ _ _ _ _ _ emb hc' he' hf' hq'] at hs
          cases hs
          exact runNotes_preserves_freshAt h
            ⟨_, dictGet_insert_self st.cache n.rel _, le_refl _⟩
        · rw [stepNote_embed_fail _ _ _ _ _ _ hc' he' hf' hq'] at hs
          cases hs
      · exact ih h n hmem c hc hne

/-- Steady state: when every note is readable and either empty or fresh in
the current cache, the loop only counts skips. -/
theorem runNotes_steady {maxLen : ℕ} {provider : String → ProviderOutcome} :
    ∀ (notes : List Note) (st : RunState),
      (∀ n ∈ notes, ∃ c, n.content? = some c ∧
        ((pyStrip (clean_text c).data).isEmpty = true ∨
          FreshAt st.cache n.rel n.mtime)) →
      ∃ st2, runNotes false maxLen provider notes st = .ok st2 ∧
        st2.cache = st.cache ∧ st2.new_count = st.new_count ∧
        st2.error_count = st.error_count ∧
        st2.removed_count = st.removed_count ∧
        st2.skip_count = st.skip_count + notes.length ∧
        st2.active_keys = (notes.map Note.rel).reverse ++ st.active_keys
  | [], st, _ => ⟨st, rfl, rfl, rfl, rfl, rfl, by simp, by simp⟩
  | n :: rest, st, hall => by
    obtain ⟨c, hc, hdisj⟩ := hall n (List.mem_cons_self n rest)
    have hstep : stepNote false maxLen provider st n =
        .ok { st with skip_count := st.skip_count + 1,
                      active_keys := n.rel :: st.active_keys } := by
      cases he : (pyStrip (clean_text c).data).isEmpty with
      | true => exact stepNote_empty _ _ _ _ _ _ hc he
      | false =>
        have hfr : FreshAt st.cache n.rel n.mtime := by
          rcases hdisj with h | h
          · rw [he] at h; cases h
          · exact h
        exact stepNote_fresh _ _ _ _ _ _ hc he
          ((freshSkip_eq_true_iff _ _ _).mpr hfr)
    have hall1 : ∀ m ∈ rest, ∃ c', m.content? = some c' ∧
        ((pyStrip (clean_text c').data).isEmpty = true ∨
          FreshAt st.cache m.rel m.mtime) :=
      fun m hm => hall m (List.mem_cons_of_mem n hm)
    obtain ⟨st2, hrun, h1, h2, h3, h4, h5, h6⟩ :=
      runNotes_steady rest
        { st with skip_count := st.skip_count + 1,
                  active_keys := n.rel :: st.active_keys } hall1
    refine ⟨st2, ?_, h1, h2, h3, h4, ?_, ?_⟩
    · rw [runNotes_cons, hstep]; exact hrun
    · rw [h5]
      simp only [List.length_cons]
      omega
    · rw [h6]
      simp

/-- Successful steps preserve key-nodup of the cache. -/
theorem stepNote_preserves_nodup_keys {force : Bool} {maxLen : ℕ}
    {provider : String → ProviderOutcome} {st st' : RunState} {n : Note}
    (hs : stepNote force maxLen provider st n = .ok st')
    (h : (st.cache.map Prod.fst).Nodup) : (st'.cache.map Prod.fst).Nodup := by
  rcases stepNote_branches force maxLen provider st n with
    hb | ⟨c, hc, he⟩ | ⟨c, hc, he, hf⟩ | ⟨c, emb, hc, he, hf, hq⟩ | ⟨c, hc, he, hf, hq⟩
  · rw [stepNote_read_err force maxLen provider st n hb] at hs; cases hs; exact h
  · rw [stepNote_empty force maxLen provider st n c hc he] at hs; cases hs; exact h
  · rw [stepNote_fresh force maxLen provider st n c hc he hf] at hs; cases hs; exact h
  · rw [stepNote_embed_ok force maxLen provider st n c emb hc he hf hq] at hs
    cases hs
    exact nodup_keys_dictInsert st.cache n.rel _ h
  · rw [stepNote_embed_fail force maxLen provider st n c hc he hf hq] at hs; cases hs

theorem runNotes_preserves_nodup_keys {force : Bool} {maxLen : ℕ}
    {provider : String → ProviderOutcome} :
    ∀ {notes : List Note} {st st' : RunState},
      runNotes force maxLen provider notes st = .ok st' →
      (st.cache.map Prod.fst).Nodup → (st'.cache.map Prod.fst).Nodup := by
  intro notes
  induction notes with
  | nil => intro st st' h hn; cases h; exact hn
  | cons n rest ih =>
    intro st st' h hn
    rw [runNotes_cons] at h
    cases hs : stepNote force maxLen provider st n with
    | error e => rw [hs] at h; cases h
    | ok st1 =>
      rw [hs] at h
      exact ih h (stepNote_preserves_nodup_keys hs hn)

/-- A step leaves the record at key `k` untouched provided any note with
that key is unreadable or has empty normalized text. -/
theorem stepNote_preserves_key {maxLen : ℕ}
    {provider : String → ProviderOutcome} {st st' : RunState} {n : Note}
    {k : String} {e : Entry}
    (hs : stepNote false maxLen provider st n = .ok st')
    (hget : dictGet st.cache k = some e)
    (hcond : n.rel = k → n.content? = none ∨
      ∃ cm, n.content? = some cm ∧ (pyStrip (clean_text cm).data).isEmpty = true) :
    dictGet st'.cache k = some e := by
  rcases stepNote_branches false maxLen provider st n with
    hb | ⟨c, hc, he⟩ | ⟨c, hc, he, hf⟩ | ⟨c, emb, hc, he, hf, hq⟩ | ⟨c, hc, he, hf, hq⟩
  · rw [stepNote_read_err false maxLen provider st n hb] at hs; cases hs; exact hget
  · rw [stepNote_empty false maxLen provider st n c hc he] at hs; cases hs; exact hget
  · rw [stepNote_fresh false maxLen provider st n c hc he hf] at hs; cases hs; exact hget
  · rw [stepNote_embed_ok false maxLen provider st n c emb hc he hf hq] at hs
    cases hs
    by_cases hk : n.rel = k
    · rcases hcond hk with hnone | ⟨cm, hcm, hecm⟩
      · rw [hnone] at hc; cases hc
      · rw [hcm] at hc; cases hc; rw [hecm] at he; cases he
    · have hkk : k ≠ n.rel := fun hh => hk hh.symm
      rw [dictGet_insert_ne st.cache n.rel _ k hkk]
      exact hget
  · rw [stepNote_embed_fail false maxLen provider st n c hc he hf hq] at hs; cases hs

theorem runNotes_preserves_key {maxLen : ℕ}
    {provider : String → ProviderOutcome} :
    ∀ {notes : List Note} {st st' : RunState} {k : String} {e : Entry},
      runNotes false maxLen provider notes st = .ok st' →
      dictGet st.cache k = some e →
      (∀ m ∈ notes, m.rel = k → m.content? = none ∨
        ∃ cm, m.content? = some cm ∧
          (pyStrip (clean_text cm).data).isEmpty = true) →
      dictGet st'.cache k = some e := by
  intro notes
  induction notes with
  | nil => intro st st' k e h hget _; cases h; exact hget
  | cons n rest ih =>
    intro st st' k e h hget hcond
    rw [runNotes_cons] at h
    cases hs : stepNote false maxLen provider st n with
    | error er => rw [hs] at h; cases h
    | ok st1 =>
      rw [hs] at h
      exact ih h
        (stepNote_preserves_key hs hget (hcond n (List.mem_cons_self n rest)))
        (fun m hm => hcond m (List.mem_cons_of_mem n hm))

/-! ## Pruning lemmas -/

theorem pruneState_cache (st : RunState) :
    (pruneState st).cache =
      st.cache.filter fun p => decide (p.1 ∈ st.active_keys) := rfl

theorem pruneState_keys_active (st : RunState) :
    ∀ p ∈ (pruneState st).cache, p.1 ∈ st.active_keys := by
  intro p hp
  rw [pruneState_cache] at hp
  simpa using (List.mem_filter.mp hp).2

theorem dictGet_pruneState (st : RunState) (k : String)
    (hk : k ∈ st.active_keys) :
    dictGet (pruneState st).cache k = dictGet st.cache k := by
  rw [pruneState_cache,
    dictGet_filter (fun s => decide (s ∈ st.active_keys)) st.cache k]
  simp [hk]

/-! ## Claims about the embed run -/

/-- After a full run the cache holds no key outside the scanned note set. -/
theorem runEmbed_keys_subset {maxLen : ℕ} {provider : String → ProviderOutcome}
    {notes : List Note} {loaded : List (String × Entry)} {st1 : RunState}
    (h1 : runEmbed false maxLen provider notes loaded = .ok st1) :
    ∀ p ∈ st1.cache, p.1 ∈ notes.map Note.rel := by
  rw [runEmbed_eq] at h1
  obtain ⟨stA, hA, hprune⟩ := exceptMap_eq_ok.mp h1
  intro p hp
  rw [← hprune] at hp
  have hact := pruneState_keys_active stA p hp
  rw [runNotes_active false maxLen provider notes _ _ hA] at hact
  simpa [initState] using hact

/-- Claim C3. Re-running the embed operation on an unchanged, fully readable
corpus from the cache the first successful run produced performs no new
embeddings, no removals and no errors, reports every note as skipped, and
leaves the cache identical. -/
theorem embed_idempotent (maxLen : ℕ) (provider : String → ProviderOutcome)
    (notes : List Note) (loaded : List (String × Entry)) (st1 : RunState)
    (hread : ∀ n ∈ notes, (n.content?).isSome)
    (h1 : runEmbed false maxLen provider notes loaded = .ok st1) :
    ∃ st2, runEmbed false maxLen provider notes st1.cache = .ok st2 ∧
      st2.cache = st1.cache ∧ st2.new_count = 0 ∧ st2.error_count = 0 ∧
      st2.removed_count = 0 ∧ st2.skip_count = notes.length := by
  have hkeys1 := runEmbed_keys_subset h1
  rw [runEmbed_eq] at h1
  obtain ⟨stA, hA, hprune⟩ := exceptMap_eq_ok.mp h1
  have hactiveA := runNotes_active false maxLen provider notes _ _ hA
  have hsteady : ∀ n ∈ notes, ∃ c, n.content? = some c ∧
      ((pyStrip (clean_text c).data).isEmpty = true ∨
        FreshAt st1.cache n.rel n.mtime) := by
    intro n hn
    obtain ⟨c, hc⟩ := Option.isSome_iff_exists.mp (hread n hn)
    refine ⟨c, hc, ?_⟩
    cases he : (pyStrip (clean_text c).data).isEmpty with
    | true => exact Or.inl rfl
    | false =>
      right
      have hfrA : FreshAt stA.cache n.rel n.mtime :=
        runNotes_establishes_freshAt hA n hn c hc he
      have hmem : n.rel ∈ stA.active_keys := by
        rw [hactiveA]
        simp only [initState, List.append_nil, List.mem_reverse, List.mem_map]
        exact ⟨n, hn, rfl⟩
      obtain ⟨e, hget, hm⟩ := hfrA
      refine ⟨e, ?_, hm⟩
      show dictGet st1.cache n.rel = some e
      rw [← hprune, dictGet_pruneState stA n.rel hmem]
      exact hget
  obtain ⟨st2', hrun2, g1, g2, g3, g4, g5, g6⟩ :=
    runNotes_steady notes (initState st1.cache) hsteady
  have hfilter : (st2'.cache.filter fun p => decide (p.1 ∈ st2'.active_keys)) =
      st2'.cache := by
    apply List.filter_eq_self.mpr
    intro p hp
    have hp1 : p ∈ st1.cache := by rw [g1] at hp; exact hp
    have hrel := hkeys1 p hp1
    rw [g6]
    simp [initState, hrel]
  refine ⟨pruneState st2', ?_, ?_, ?_, ?_, ?_, ?_⟩
  · rw [runEmbed_eq, hrun2]; rfl
  · rw [pruneState_cache, hfilter]; exact g1
  · exact g2
  · exact g3
  · show st2'.removed_count +
      (st2'.cache.length -
        (st2'.cache.filter fun p => decide (p.1 ∈ st2'.active_keys)).length) = 0
    rw [hfilter, g4]
    simp [initState]
  · show st2'.skip_count = notes.length
    rw [g5]
    simp [initState]

set_option maxRecDepth 10000 in
/-- Witness for C3: a one-note corpus embedded from an empty cache, then
re-embedded from the resulting cache. -/
theorem embed_idempotent_witness :
    ∃ st2, runEmbed false 50 (fun _ => ProviderOutcome.ok [1])
        [⟨"/v/a.md", "a", "a.md", 5, some "hi"⟩]
        [("a.md", ⟨"/v/a.md", "a", "a.md", 5, [1], "hi"⟩)] = .ok st2 ∧
      st2.cache = [("a.md", ⟨"/v/a.md", "a", "a.md", 5, [1], "hi"⟩)] ∧
      st2.new_count = 0 ∧ st2.error_count = 0 ∧ st2.removed_count = 0 ∧
      st2.skip_count = 1 := by
  have h := embed_idempotent 50 (fun _ => ProviderOutcome.ok [1])
    [⟨"/v/a.md", "a", "a.md", 5, some "hi"⟩] []
    { cache := [("a.md", ⟨"/v/a.md", "a", "a.md", 5, [1], "hi"⟩)],
      new_count := 1, skip_count := 0, error_count := 0, removed_count := 0,
      active_keys := ["a.md"] }
    (by intro n hn; simp at hn; subst hn; rfl)
    (by rfl)
  exact h

/-- Removing the single occurrence of key `r` from a key-nodup association
list shortens it by exactly one. -/
theorem length_filter_ne_of_nodup :
    ∀ (l : List (String × Entry)) (r : String),
      (l.map Prod.fst).Nodup → r ∈ l.map Prod.fst →
      (l.filter fun q => decide (q.1 ≠ r)).length + 1 = l.length
  | [], r, _, hm => by simp at hm
  | (a, b) :: rest, r, hnd, hm => by
    simp only [List.map_cons, List.nodup_cons] at hnd
    simp only [List.map_cons, List.mem_cons] at hm
    rcases hm with hra | hm
    · rw [List.filter_cons_of_neg (by simp [hra])]
      have hres : (rest.filter fun q => decide (q.1 ≠ r)) = rest := by
        apply List.filter_eq_self.mpr
        intro q hq
        have hqm : q.1 ∈ rest.map Prod.fst := List.mem_map.mpr ⟨q, hq, rfl⟩
        simp only [decide_eq_true_eq]
        intro hqa
        rw [hqa, hra] at hqm
        exact hnd.1 hqm
      rw [hres]
      simp
    · have har : a ≠ r := fun h => hnd.1 (h ▸ hm)
      rw [List.filter_cons_of_pos (by simp [har])]
      have ih := length_filter_ne_of_nodup rest r hnd.2 hm
      simp only [List.length_cons]
      omega

/-- Claim C5. After an embed run the cache contains no key outside the
scanned note set; and deleting exactly one note (whose record is present)
and re-running removes precisely that record: the total record count drops
by one, the removal counter is one, and every other key's record is
untouched. -/
theorem embed_prunes_deleted_note (maxLen : ℕ)
    (provider : String → ProviderOutcome) (notes : List Note)
    (loaded : List (String × Entry)) (st1 : RunState) (r : String)
    (nstar : Note)
    (hnodup0 : (loaded.map Prod.fst).Nodup)
    (hrels : (notes.map Note.rel).Nodup)
    (hread : ∀ n ∈ notes, (n.content?).isSome)
    (h1 : runEmbed false maxLen provider notes loaded = .ok st1)
    (hn : nstar ∈ notes) (hr : r = nstar.rel)
    (hin : r ∈ st1.cache.map Prod.fst) :
    (∀ p ∈ st1.cache, p.1 ∈ notes.map Note.rel) ∧
    ∃ st2, runEmbed false maxLen provider
        (notes.filter fun m => decide (m.rel ≠ r)) st1.cache = .ok st2 ∧
      st2.cache = st1.cache.filter (fun q => decide (q.1 ≠ r)) ∧
      cacheTotalNotes st2.cache + 1 = cacheTotalNotes st1.cache ∧
      st2.removed_count = 1 ∧
      ∀ k, k ≠ r → dictGet st2.cache k = dictGet st1.cache k := by
  have hkeys1 := runEmbed_keys_subset h1
  refine ⟨hkeys1, ?_⟩
  -- key-nodup of the produced cache
  have hnodup1 : (st1.cache.map Prod.fst).Nodup := by
    rw [runEmbed_eq] at h1
    obtain ⟨stA, hA, hprune⟩ := exceptMap_eq_ok.mp h1
    have hA' : (stA.cache.map Prod.fst).Nodup :=
      runNotes_preserves_nodup_keys hA (by simpa [initState] using hnodup0)
    rw [← hprune, pruneState_cache]
    exact hA'.sublist ((List.filter_sublist _).map Prod.fst)
  -- freshness of the surviving notes in st1.cache (as in C3)
  have hsteady0 : ∀ n ∈ notes, ∃ c, n.content? = some c ∧
      ((pyStrip (clean_text c).data).isEmpty = true ∨
        FreshAt st1.cache n.rel n.mtime) := by
    have h1' := h1
    rw [runEmbed_eq] at h1'
    obtain ⟨stA, hA, hprune⟩ := exceptMap_eq_ok.mp h1'
    have hactiveA := runNotes_active false maxLen provider notes _ _ hA
    intro n hn'
    obtain ⟨c, hc⟩ := Option.isSome_iff_exists.mp (hread n hn')
    refine ⟨c, hc, ?_⟩
    cases he : (pyStrip (clean_text c).data).isEmpty with
    | true => exact Or.inl rfl
    | false =>
      right
      have hfrA : FreshAt stA.cache n.rel n.mtime :=
        runNotes_establishes_freshAt hA n hn' c hc he
      have hmem : n.rel ∈ stA.active_keys := by
        rw [hactiveA]
        simp only [initState, List.append_nil, List.mem_reverse, List.mem_map]
        exact ⟨n, hn', rfl⟩
      obtain ⟨e, hget, hm⟩ := hfrA
      refine ⟨e, ?_, hm⟩
      show dictGet st1.cache n.rel = some e
      rw [← hprune, dictGet_pruneState stA n.rel hmem]
      exact hget
  have hsteady : ∀ n ∈ notes.filter fun m => decide (m.rel ≠ r),
      ∃ c, n.content? = some c ∧
        ((pyStrip (clean_text c).data).isEmpty = true ∨
          FreshAt st1.cache n.rel n.mtime) :=
    fun n hn' => hsteady0 n (List.mem_of_mem_filter hn')
  obtain ⟨st2', hrun2, g1, g2, g3, g4, g5, g6⟩ :=
    runNotes_steady (notes.filter fun m => decide (m.rel ≠ r))
      (initState st1.cache) hsteady
  -- membership in run 2's active keys is exactly "key different from r"
  have hactive_iff : ∀ p ∈ st1.cache,
      (decide (p.1 ∈ st2'.active_keys)) = decide (p.1 ≠ r) := by
    intro p hp
    rw [g6]
    have hrel := hkeys1 p hp
    obtain ⟨m, hm, hmrel⟩ := List.mem_map.mp hrel
    by_cases hpr : p.1 = r
    · subst hpr
      simp only [initState, List.append_nil, List.mem_reverse, List.mem_map,
        decide_eq_decide]
      constructor
      · rintro ⟨m', hm', hrel'⟩
        have := (List.mem_filter.mp hm').2
        rw [hrel'] at this
        simpa using this
      · intro h; exact absurd rfl h
    · simp only [initState, List.append_nil, List.mem_reverse, List.mem_map,
        decide_eq_decide]
      constructor
      · intro _; exact hpr
      · intro _
        refine ⟨m, List.mem_filter.mpr ⟨hm, by simp [hmrel, hpr]⟩, hmrel⟩
  have hfilter : (st2'.cache.filter fun p => decide (p.1 ∈ st2'.active_keys)) =
      st1.cache.filter fun q => decide (q.1 ≠ r) := by
    have hcache2 : st2'.cache = st1.cache := g1
    rw [hcache2]
    exact List.filter_congr hactive_iff
  refine ⟨pruneState st2', ?_, ?_, ?_, ?_, ?_⟩
  · rw [runEmbed_eq, hrun2]; rfl
  · rw [pruneState_cache, hfilter]
  · show (st2'.cache.filter fun p =>
        decide (p.1 ∈ st2'.active_keys)).length + 1 = st1.cache.length
    rw [hfilter]
    exact length_filter_ne_of_nodup st1.cache r hnodup1 hin
  · show st2'.removed_count +
      (st2'.cache.length -
        (st2'.cache.filter fun p => decide (p.1 ∈ st2'.active_keys)).length) = 1
    rw [hfilter, g4]
    have hlen := length_filter_ne_of_nodup st1.cache r hnodup1 hin
    have hcache2 : st2'.cache = st1.cache := g1
    rw [hcache2]
    simp only [initState]
    omega
  · intro k hk
    rw [pruneState_cache, hfilter,
      dictGet_filter (fun s => decide (s ≠ r)) st1.cache k]
    simp [hk]

set_option maxRecDepth 10000 in
/-- Witness for C5: two notes embedded from an empty cache, then the second
one is deleted and the run repeated. -/
theorem embed_prunes_deleted_note_witness :
    (∀ p ∈ ([("a.md", ⟨"/v/a.md", "a", "a.md", 5, [1], "hi"⟩),
        ("b.md", ⟨"/v/b.md", "b", "b.md", 7, [1], "yo"⟩)] :
          List (String × Entry)), p.1 ∈
        [Note.mk "/v/a.md" "a" "a.md" 5 (some "hi"),
         Note.mk "/v/b.md" "b" "b.md" 7 (some "yo")].map Note.rel) ∧
    ∃ st2, runEmbed false 50 (fun _ => ProviderOutcome.ok [1])
        ([Note.mk "/v/a.md" "a" "a.md" 5 (some "hi"),
          Note.mk "/v/b.md" "b" "b.md" 7 (some "yo")].filter
            fun m => decide (m.rel ≠ "b.md"))
        [("a.md", ⟨"/v/a.md", "a", "a.md", 5, [1], "hi"⟩),
         ("b.md", ⟨"/v/b.md", "b", "b.md", 7, [1], "yo"⟩)] = .ok st2 ∧
      st2.cache = ([("a.md", ⟨"/v/a.md", "a", "a.md", 5, [1], "hi"⟩),
          ("b.md", ⟨"/v/b.md", "b", "b.md", 7, [1], "yo"⟩)] :
            List (String × Entry)).filter (fun q => decide (q.1 ≠ "b.md")) ∧
      cacheTotalNotes st2.cache + 1 =
        cacheTotalNotes [("a.md", ⟨"/v/a.md", "a", "a.md", 5, [1], "hi"⟩),
          ("b.md", ⟨"/v/b.md", "b", "b.md", 7, [1], "yo"⟩)] ∧
      st2.removed_count = 1 ∧
      ∀ k, k ≠ "b.md" →
        dictGet st2.cache k =
          dictGet [("a.md", ⟨"/v/a.md", "a", "a.md", 5, [1], "hi"⟩),
            ("b.md", ⟨"/v/b.md", "b", "b.md", 7, [1], "yo"⟩)] k := by
  have h := embed_prunes_deleted_note 50 (fun _ => ProviderOutcome.ok [1])
    [Note.mk "/v/a.md" "a" "a.md" 5 (some "hi"),
     Note.mk "/v/b.md" "b" "b.md" 7 (some "yo")] []
    { cache := [("a.md", ⟨"/v/a.md", "a", "a.md", 5, [1], "hi"⟩),
        ("b.md", ⟨"/v/b.md", "b", "b.md", 7, [1], "yo"⟩)],
      new_count := 2, skip_count := 0, error_count := 0, removed_count := 0,
      active_keys := ["b.md", "a.md"] }
    "b.md" (Note.mk "/v/b.md" "b" "b.md" 7 (some "yo"))
    (by simp)
    (by decide)
    (by intro n hn; rcases List.mem_cons.mp hn with rfl | hn
        · rfl
        · rcases List.mem_cons.mp hn with rfl | hn
          · rfl
          · simp at hn)
    (by rfl)
    (by simp)
    rfl
    (by decide)
  exact h

/-- Claim C10. A note whose normalized text is empty is skipped before the
freshness check — the step counts it as skipped and touches neither the
cache nor any counter besides `skip_count` — and because its key is still
marked active, a pre-existing cache record under that key survives the
whole run (pruning included) completely unchanged, no matter how stale it
is. -/
theorem embed_empty_note_preserves_record (maxLen : ℕ)
    (provider : String → ProviderOutcome) (notes : List Note)
    (loaded : List (String × Entry)) (st1 : RunState) (n : Note) (c : String)
    (e : Entry)
    (hrels : (notes.map Note.rel).Nodup)
    (hn : n ∈ notes) (hc : n.content? = some c)
    (hempty : (pyStrip (clean_text c).data).isEmpty = true)
    (h1 : runEmbed false maxLen provider notes loaded = .ok st1)
    (he : dictGet loaded n.rel = some e) :
    dictGet st1.cache n.rel = some e ∧
    ∀ st : RunState, stepNote false maxLen provider st n =
      .ok { st with skip_count := st.skip_count + 1,
                    active_keys := n.rel :: st.active_keys } := by
  constructor
  · rw [runEmbed_eq] at h1
    obtain ⟨stA, hA, hprune⟩ := exceptMap_eq_ok.mp h1
    have hcond : ∀ m ∈ notes, m.rel = n.rel → m.content? = none ∨
        ∃ cm, m.content? = some cm ∧
          (pyStrip (clean_text cm).data).isEmpty = true := by
      intro m hm hrel
      have hmn : m = n := List.inj_on_of_nodup_map hrels hm hn hrel
      subst hmn
      exact Or.inr ⟨c, hc, hempty⟩
    have hgetA : dictGet stA.cache n.rel = some e :=
      runNotes_preserves_key hA he hcond
    have hmem : n.rel ∈ stA.active_keys := by
      rw [runNotes_active false maxLen provider notes _ _ hA]
      simp only [initState, List.append_nil, List.mem_reverse, List.mem_map]
      exact ⟨n, hn, rfl⟩
    rw [← hprune, dictGet_pruneState stA n.rel hmem]
    exact hgetA
  · intro st
    exact stepNote_empty false maxLen provider st n c hc hempty

set_option maxRecDepth 10000 in
/-- Witness for C10: a note that cleans to nothing, over a cache holding a
stale record (stored mtime 2, note mtime 9) for its key. -/
theorem embed_empty_note_preserves_record_witness :
    dictGet [("e.md", ⟨"/v/e.md", "e", "e.md", 2, [5], "old"⟩)] "e.md" =
      some ⟨"/v/e.md", "e", "e.md", 2, [5], "old"⟩ ∧
    stepNote false 50 (fun _ => ProviderOutcome.ok [1]) (initState [])
        (Note.mk "/v/e.md" "e" "e.md" 9 (some "<b></b>")) =
      .ok { cache := [], new_count := 0, skip_count := 0 + 1,
            error_count := 0, removed_count := 0,
            active_keys := ["e.md"] } := by
  have h := embed_empty_note_preserves_record 50
    (fun _ => ProviderOutcome.ok [1])
    [Note.mk "/v/e.md" "e" "e.md" 9 (some "<b></b>")]
    [("e.md", ⟨"/v/e.md", "e", "e.md", 2, [5], "old"⟩)]
    { cache := [("e.md", ⟨"/v/e.md", "e", "e.md", 2, [5], "old"⟩)],
      new_count := 0, skip_count := 1, error_count := 0, removed_count := 0,
      active_keys := ["e.md"] }
    (Note.mk "/v/e.md" "e" "e.md" 9 (some "<b></b>")) "<b></b>"
    ⟨"/v/e.md", "e", "e.md", 2, [5], "old"⟩
    (by decide) (by simp) rfl (by rfl) (by rfl) (by rfl)
  exact ⟨h.1, h.2 (initState [])⟩

/-- Claim C4, amended. For a readable note with non-empty normalized text
and forced refresh off, the loop iteration skips the note (counting it in
the shared skip counter, cache untouched) exactly when a cached record for
its key has stored modification time `≥` the note's; in particular a newer
on-disk mtime forces re-embedding, and an mtime reverted below the stored
one does not. -/
theorem step_skip_iff_fresh (maxLen : ℕ)
    (provider : String → ProviderOutcome) (st : RunState) (n : Note)
    (c : String)
    (hc : n.content? = some c)
    (hne : (pyStrip (clean_text c).data).isEmpty = false) :
    (∃ st', stepNote false maxLen provider st n = .ok st' ∧
        st'.cache = st.cache ∧ st'.skip_count = st.skip_count + 1) ↔
      FreshAt st.cache n.rel n.mtime := by
  constructor
  · rintro ⟨st', hs, hcache, hskip⟩
    by_contra hnf
    have hnf' : freshSkip false st.cache n.rel n.mtime = false := by
      cases hq : freshSkip false st.cache n.rel n.mtime with
      | false => rfl
      | true => exact absurd ((freshSkip_eq_true_iff _ _ _).mp hq) hnf
    have hsplit : (∃ v, provider ((clean_text c).take maxLen) = .ok v) ∨
        (∀ v, provider ((clean_text c).take maxLen) ≠ .ok v) := by
      cases hq : provider ((clean_text c).take maxLen) with
      | ok v => exact Or.inl ⟨v, rfl⟩
      | networkError => exact Or.inr fun v h => by cases h
      | httpError => exact Or.inr fun v h => by cases h
      | missingApiKey => exact Or.inr fun v h => by cases h
      | malformedResponse => exact Or.inr fun v h => by cases h
    rcases hsplit with ⟨v, hprov⟩ | hprov
    · rw [stepNote_embed_ok false maxLen provider st n c v hc hne hnf' hprov]
        at hs
      cases hs
      simp at hskip
    · rw [stepNote_embed_fail false maxLen provider st n c hc hne hnf' hprov]
        at hs
      cases hs
  · intro hfr
    exact ⟨_, stepNote_fresh false maxLen provider st n c hc hne
      ((freshSkip_eq_true_iff _ _ _).mpr hfr), rfl, rfl⟩

set_option maxRecDepth 10000 in
/-- Witness for C4: a note whose cached record (stored mtime 10) is newer
than its on-disk mtime 5 is skipped with the cache untouched. -/
theorem step_skip_iff_fresh_witness :
    ∃ st', stepNote false 50 (fun _ => ProviderOutcome.ok [1])
        { cache := [("a.md", ⟨"/v/a.md", "a", "a.md", 10, [1], "hi"⟩)],
          new_count := 0, skip_count := 0, error_count := 0,
          removed_count := 0, active_keys := [] }
        (Note.mk "/v/a.md" "a" "a.md" 5 (some "hi")) = .ok st' ∧
      st'.cache = [("a.md", ⟨"/v/a.md", "a", "a.md", 10, [1], "hi"⟩)] ∧
      st'.skip_count = 0 + 1 :=
  (step_skip_iff_fresh 50 (fun _ => ProviderOutcome.ok [1])
      { cache := [("a.md", ⟨"/v/a.md", "a", "a.md", 10, [1], "hi"⟩)],
        new_count := 0, skip_count := 0, error_count := 0,
        removed_count := 0, active_keys := [] }
      (Note.mk "/v/a.md" "a" "a.md" 5 (some "hi")) "hi" rfl (by rfl)).mpr
    ⟨⟨"/v/a.md", "a", "a.md", 10, [1], "hi"⟩, rfl, by norm_num⟩

set_option maxRecDepth 10000 in
/-- Claim C4, counterexample. A note whose normalized text is empty is counted
in the skip counter even though no cached record exists for its key at all:
the claimed equivalence fails for empty-text notes. -/
theorem empty_note_skipped_without_record :
    runEmbed false 50 (fun _ => ProviderOutcome.ok [1])
        [Note.mk "/v/e.md" "e" "e.md" 9 (some "<b></b>")] [] =
      .ok { cache := [], new_count := 0, skip_count := 1, error_count := 0,
            removed_count := 0, active_keys := ["e.md"] } ∧
    dictGet [] "e.md" = none := by
  exact ⟨rfl, rfl⟩

/-- Claim C1, amended. When the provider fails for a note that reaches the
embedding call (readable, non-empty text, not served from cache), the whole
run aborts immediately with exit code 1 — the notes after it are never
processed and no summary state is produced. -/
theorem embed_run_aborts_on_provider_failure (maxLen : ℕ)
    (provider : String → ProviderOutcome) (loaded : List (String × Entry))
    (pre post : List Note) (n : Note) (st : RunState) (c : String)
    (hpre : runNotes false maxLen provider pre (initState loaded) = .ok st)
    (hc : n.content? = some c)
    (hne : (pyStrip (clean_text c).data).isEmpty = false)
    (hnf : freshSkip false st.cache n.rel n.mtime = false)
    (hfail : ∀ v, provider ((clean_text c).take maxLen) ≠ ProviderOutcome.ok v) :
    runEmbed false maxLen provider (pre ++ n :: post) loaded =
      Except.error 1 := by
  rw [runEmbed_eq, runNotes_append, hpre]
  show (runNotes false maxLen provider (n :: post) st).map pruneState =
    Except.error 1
  rw [runNotes_cons,
    stepNote_embed_fail false maxLen provider st n c hc hne hnf hfail]
  rfl

set_option maxRecDepth 10000 in
/-- Witness for C1: the second of two notes hits a network failure after the
first embedded successfully, and the run aborts. -/
theorem embed_run_aborts_on_provider_failure_witness :
    runEmbed false 50
        (fun t => if t = "hello" then ProviderOutcome.ok [1]
          else ProviderOutcome.networkError)
        ([Note.mk "/v/a.md" "a" "a.md" 1 (some "hello")] ++
          Note.mk "/v/b.md" "b" "b.md" 2 (some "world") :: []) [] =
      Except.error 1 :=
  embed_run_aborts_on_provider_failure 50
    (fun t => if t = "hello" then ProviderOutcome.ok [1]
      else ProviderOutcome.networkError) []
    [Note.mk "/v/a.md" "a" "a.md" 1 (some "hello")] []
    (Note.mk "/v/b.md" "b" "b.md" 2 (some "world"))
    { cache := [("a.md", ⟨"/v/a.md", "a", "a.md", 1, [1], "hello"⟩)],
      new_count := 1, skip_count := 0, error_count := 0, removed_count := 0,
      active_keys := ["a.md"] }
    "world" (by rfl) rfl (by rfl) (by rfl)
    (fun v h => by
      rw [show ((clean_text "world").take 50) = "world" from rfl] at h
      dsimp only at h
      rw [if_neg (by decide : ¬ ("world" = "hello"))] at h
      cases h)

set_option maxRecDepth 10000 in
/-- Claim C1, counterexample. A provider failure on the very first note aborts
the entire two-note run with exit code 1: the run is not continued and no
error summary is produced, contradicting the claimed per-note scoping. -/
theorem embed_run_aborted_by_provider_failure :
    runEmbed false 50 (fun _ => ProviderOutcome.networkError)
        [Note.mk "/v/a.md" "a" "a.md" 1 (some "hello"),
         Note.mk "/v/b.md" "b" "b.md" 2 (some "world")] [] =
      Except.error 1 := by
  rfl

end ZettelLink
